import Mathlib

/-!
Graphio: point bursts, the point store and the two rasterizer passes.

A shallow embedding of `src/main.cc`.

* Packed pixels (`uint32_t`) are natural numbers below `2 ^ 32`; `int32_t`
  values are integers; conversions to `uint32_t` are written `% 2 ^ 32`.
* `std::complex<double>` is embedded with exact arithmetic.  The rasterizer
  arithmetic (`==`, `floor`, `fmod`, the products of the weights) is written
  over an arbitrary floor ring `K`, so it runs on rationals and holds for
  the reals.  Burst generation uses `sqrt`, `polar` and `abs`, which only
  exist over the reals, so it is embedded over `ℂ`.
-/

namespace Graphio

/-! ## `assign` (main.cc 425-439) -/

/-- Conversion of an `int` to `uint32_t`: reduction modulo `2 ^ 32`. -/
def toU32 (x : Int) : Nat := (x % 2 ^ 32).toNat

/-- The array `int32_t rhs[] = { b, g, r, a }` of `assign`, as a lookup. -/
def assignRhs (a r g b : Int) (i : Nat) : Int :=
  match i with
  | 0 => b
  | 1 => g
  | 2 => r
  | _ => a

/-- One iteration of the loop of `assign`:
`int32_t x = (lhs & (0xff << (i*8))) >> (i*8);`
`x = std::min<int>(0xff, x + rhs[i]);`
`ret |= (x << (i*8));` -/
def assignStep (lhs : Nat) (rhs : Nat → Int) (ret : Nat) (i : Nat) : Nat :=
  let x : Int := (((lhs &&& toU32 (0xff * 2 ^ (i * 8))) >>> (i * 8) : Nat) : Int)
  let x : Int := min 0xff (x + rhs i)
  ret ||| toU32 (x * 2 ^ (i * 8))

/-- The function `assign(lhs, a, r, g, b)`: the value stored back into `lhs`.
The loop `for (int i = 0; i < 4; ++i)` is a fold over `0, 1, 2, 3`
starting from `ret = 0`.  The arguments `a r g b` are the addends after
`static_cast<int32_t>`; `x + rhs[i]` is computed in the integers, which is what the
`int` addition does whenever it does not overflow. -/
def assign (lhs : Nat) (a r g b : Int) : Nat :=
  (List.range 4).foldl (assignStep lhs (assignRhs a r g b)) 0

/-- The 8-bit channel number `i` of a packed pixel
(0 = blue, 1 = green, 2 = red, 3 = alpha). -/
def channel (p : Nat) (i : Nat) : Nat := (p / 2 ^ (8 * i)) % 256

/-! ## Points (`std::complex<double>`) -/

/-- A point `std::complex<double>`: `re` is `real()`, the x coordinate, and `im` is
`imag()`, the y coordinate. -/
structure Point (K : Type) where
  re : K
  im : K

/-- Complex addition `z + w`. -/
def Point.add {K : Type} [LinearOrderedField K] (z w : Point K) : Point K :=
  ⟨z.re + w.re, z.im + w.im⟩

/-- Complex subtraction `z - w`. -/
def Point.sub {K : Type} [LinearOrderedField K] (z w : Point K) : Point K :=
  ⟨z.re - w.re, z.im - w.im⟩

/-- The product `t * z` of a real scalar and a complex number. -/
def Point.smul {K : Type} [LinearOrderedField K] (t : K) (z : Point K) : Point K :=
  ⟨t * z.re, t * z.im⟩

/-- The modulus `std::abs(z)`, the Euclidean norm. -/
noncomputable def Point.abs (z : Point ℝ) : ℝ := Real.sqrt (z.re ^ 2 + z.im ^ 2)

/-- The function `std::polar(r, theta)`. -/
noncomputable def polar (r theta : ℝ) : Point ℝ := ⟨r * Real.cos theta, r * Real.sin theta⟩

/-- Rounding toward zero, the integer quotient taken by `std::fmod`. -/
def truncate {K : Type} [LinearOrderedField K] [FloorRing K] (v : K) : Int :=
  if 0 ≤ v then ⌊v⌋ else ⌈v⌉

/-- The function `std::fmod(x, y)`: `x - n * y` where `n` is `x / y` rounded toward
zero, so the result has the sign of `x`. -/
def fmod {K : Type} [LinearOrderedField K] [FloorRing K] (x y : K) : K :=
  x - (truncate (x / y) : K) * y

/-! ## Keyboard listener and frame loop (main.cc 284-296, 384-391) -/

/-- The `.key` handler: the new value of `quit`.
`if (state == 0 && (key == 1 || key == 16)) *data = true;` -/
def keyHandler (quit : Bool) (key state : Nat) : Bool :=
  if state = 0 ∧ (key = 1 ∨ key = 16) then true else quit

/-! ## Pointer listener (main.cc 307-336) -/

/-- The constant `BTN_RIGHT` of `linux/input-event-codes.h`. -/
def BTN_RIGHT : Nat := 0x111

/-- The surface width `constexpr int32_t cx = 1024`. -/
def cx : Nat := 1024

/-- The surface height `constexpr int32_t cy = 768`. -/
def cy : Nat := 768

/-- The function `wl_fixed_to_double` of `wayland-util.h`: a signed 24.8 fixed-point
number is its integer value divided by 256. -/
def wl_fixed_to_double {K : Type} [LinearOrderedField K] (f : Int) : K := (f : K) / 256

/-- The `.motion` handler: `vertices->front() = { wl_fixed_to_double(x),
wl_fixed_to_double(y) }`.  `front()` of an empty vector is undefined: `none`. -/
def motion {K : Type} [LinearOrderedField K] (vertices : List (Point K)) (x y : Int) :
    Option (List (Point K)) :=
  match vertices with
  | [] => none
  | _ :: rest => some (⟨wl_fixed_to_double x, wl_fixed_to_double y⟩ :: rest)

/-- The constant `tau = 2 * std::numbers::pi`. -/
noncomputable def tau : ℝ := 2 * Real.pi

/-- The constant `phi = std::numbers::phi`, the golden ratio. -/
noncomputable def phi : ℝ := (1 + Real.sqrt 5) / 2

/-- The loop `for (int i = start; i < bound; ++i) vertices->push_back(f i)`:
the points it pushes, in order.  The counter is compared with the real `bound`;
it is not wrapped at `2 ^ 31`, which no cursor delivered as a 24.8 fixed-point
pair can reach. -/
noncomputable def pushWhile (bound : ℝ) (f : Nat → Point ℝ) (i : Nat) : List (Point ℝ) :=
  if (i : ℝ) < bound then f i :: pushWhile bound f (i + 1) else []
termination_by ⌈bound⌉₊ - i
decreasing_by
  have h : i < ⌈bound⌉₊ := Nat.lt_ceil.mpr (by assumption)
  omega

/-- The spiral loop `for (int i = 1; i < 64; ++i)` pushing
`pt + std::polar<double>(std::sqrt(i), i*tau*phi)`. -/
noncomputable def spiral (pt : Point ℝ) : List (Point ℝ) :=
  (List.range' 1 63).map
    (fun (i : Nat) => pt.add (polar (Real.sqrt (i : ℝ)) ((i : ℝ) * tau * phi)))

/-- The inward connector loop `for (int i = 1; i < std::abs(pt); ++i)` pushing
`std::fmod(phi*i, 1.0) * pt`. -/
noncomputable def inward (pt : Point ℝ) : List (Point ℝ) :=
  pushWhile pt.abs (fun i => Point.smul (fmod (phi * i) 1) pt) 1

/-- The outward connector loop
`for (int i = 1; i < std::abs(std::complex<double>(cx, 0) - pt); ++i)` pushing
`pt + std::fmod(phi*i, 1.0) * (std::complex<double>(cx, 0) - pt)`. -/
noncomputable def outward (width : Nat) (pt : Point ℝ) : List (Point ℝ) :=
  pushWhile (Point.sub ⟨(width : ℝ), 0⟩ pt).abs
    (fun i => pt.add (Point.smul (fmod (phi * i) 1) (Point.sub ⟨(width : ℝ), 0⟩ pt))) 1

/-- Everything one right-button press pushes: `pt` itself, then the three loops. -/
noncomputable def burst (width : Nat) (pt : Point ℝ) : List (Point ℝ) :=
  pt :: (spiral pt ++ (inward pt ++ outward width pt))

/-- The `.button` handler: `if (button == BTN_RIGHT && state)` it pushes the burst
of `pt = vertices->front()`, otherwise it does nothing.  `front()` of an empty
vector is undefined: `none`. -/
noncomputable def button (vertices : List (Point ℝ)) (btn state : Nat) :
    Option (List (Point ℝ)) :=
  if btn = BTN_RIGHT ∧ state ≠ 0 then
    match vertices with
    | [] => none
    | pt :: _ => some (vertices ++ burst cx pt)
  else some vertices

/-- The events the pointer and keyboard listeners react to (all other listener
entries are empty lambdas). -/
inductive Event where
  | motion (x y : Int)
  | button (btn state : Nat)
  | key (key state : Nat)

/-- The two captured variables of `windowing` the listeners write: `quit` and
`vertices`. -/
structure State where
  quit : Bool
  vertices : List (Point ℝ)

/-- The state at the start of the frame loop: `bool quit = false;` and
`std::vector<std::complex<double>> vertices{{}};`. -/
noncomputable def State.init : State := ⟨false, [⟨0, 0⟩]⟩

/-- Delivery of one event to its listener. -/
noncomputable def step (s : State) (e : Event) : Option State :=
  match e with
  | Event.motion x y => (motion s.vertices x y).map (fun v => ⟨s.quit, v⟩)
  | Event.button b st => (button s.vertices b st).map (fun v => ⟨s.quit, v⟩)
  | Event.key k st => some ⟨keyHandler s.quit k st, s.vertices⟩

/-- Delivery of a sequence of events, in order. -/
noncomputable def run (s : State) (es : List Event) : Option State :=
  match es with
  | [] => some s
  | e :: rest => (step s e).bind (fun s1 => run s1 rest)

/-- One call of `wl_display_dispatch`: the events it delivers and whether it
returned `-1`. -/
structure Dispatch where
  events : List Event
  failed : Bool

/-- The frame loop
`do { if (quit) break; rendering(...); ... } while (wl_display_dispatch(display) != -1);`
run against the successive dispatch calls: the list of point sequences `rendering` was
called with, one entry per frame started.  When the dispatch calls run out the loop is
left blocked in `wl_display_dispatch`. -/
noncomputable def frameLoop (s : State) (ds : List Dispatch) : Option (List (List (Point ℝ))) :=
  if s.quit then some []
  else
    match ds with
    | [] => some [s.vertices]
    | d :: rest =>
      match run s d.events with
      | none => none
      | some s1 =>
        if d.failed then some [s.vertices]
        else (frameLoop s1 rest).map (fun frames => s.vertices :: frames)

/-! ## Rasterizer (main.cc 441-489) -/

/-- A raster: the pixel stored at `(row, col)`. -/
abbrev Raster := Nat → Nat → Nat

/-- Pass A, the first `parallel_for` over `dim = {height, width}`: the work item
`idx = (row, col)` stores `0xccffffff` if `cur.real() == idx[1] || cur.imag() == idx[0]`
and `0xcc000000` otherwise.  Pixels outside `dim` are not visited. -/
def passA {K : Type} [LinearOrderedField K] (height width : Nat) (cur : Point K)
    (pixels : Raster) : Raster :=
  fun row col =>
    if row < height ∧ col < width then
      if cur.re = (col : K) ∨ cur.im = (row : K) then 0xccffffff else 0xcc000000
    else pixels row col

/-- Pass B: `pq = { std::floor(pt.real()), std::floor(pt.imag()) }`. -/
def passB_pq {K : Type} [LinearOrderedField K] [FloorRing K] (pt : Point K) : Point K :=
  ⟨(⌊pt.re⌋ : K), (⌊pt.im⌋ : K)⟩

/-- Pass B: `pr = { std::fmod(pt.real(), 1.0), std::fmod(pt.imag(), 1.0) }`. -/
def passB_pr {K : Type} [LinearOrderedField K] [FloorRing K] (pt : Point K) : Point K :=
  ⟨fmod pt.re 1, fmod pt.im 1⟩

/-- Conversion of a `double` to `unsigned`: the value rounded toward zero; undefined
(`none`) when that is not a value of `unsigned`. -/
def toUnsigned {K : Type} [LinearOrderedField K] [FloorRing K] (v : K) : Option Nat :=
  if -1 < v ∧ v < 2 ^ 32 then some ⌊v⌋₊ else none

/-- Pass B: the four weights `a, b, c, d` of a point,
`unsigned a = 255 * (1 - xr) * (1 - yr);` `unsigned b = 255 * (1 - xr) * yr;`
`unsigned c = 255 * xr * (1 - yr);` `unsigned d = 255 * xr * yr;`. -/
def weights {K : Type} [LinearOrderedField K] [FloorRing K] (pt : Point K) :
    Option (Nat × Nat × Nat × Nat) :=
  let xr := (passB_pr pt).re
  let yr := (passB_pr pt).im
  (toUnsigned (255 * (1 - xr) * (1 - yr))).bind fun a =>
  (toUnsigned (255 * (1 - xr) * yr)).bind fun b =>
  (toUnsigned (255 * xr * (1 - yr))).bind fun c =>
  (toUnsigned (255 * xr * yr)).bind fun d =>
  some (a, b, c, d)

/-- Pass B: the indices `(row, col)` of the four pixels handed to `assign`, in the
order of the four calls: `{(unsigned) pq.imag()+0, (unsigned) pq.real()+0}`,
`{(unsigned) pq.imag()+1, (unsigned) pq.real()+0}`,
`{(unsigned) pq.imag()+0, (unsigned) pq.real()+1}`,
`{(unsigned) pq.imag()+1, (unsigned) pq.real()+1}`.  The cast applies to the
coordinate of `pq` alone and the sum is an `unsigned` sum, hence `% 2 ^ 32`; no index is
compared with `dim`. -/
def passB_targets {K : Type} [LinearOrderedField K] [FloorRing K] (pt : Point K) :
    Option (List (Nat × Nat)) :=
  (toUnsigned (passB_pq pt).im).bind fun row =>
  (toUnsigned (passB_pq pt).re).bind fun col =>
  some [((row + 0) % 2 ^ 32, (col + 0) % 2 ^ 32),
        ((row + 1) % 2 ^ 32, (col + 0) % 2 ^ 32),
        ((row + 0) % 2 ^ 32, (col + 1) % 2 ^ 32),
        ((row + 1) % 2 ^ 32, (col + 1) % 2 ^ 32)]

end Graphio

namespace Graphio

/-! ### Lemmas on `assign` -/

theorem mask_shift_eq (lhs k : Nat) :
    (lhs &&& (0xff * 2 ^ k)) >>> k = (lhs / 2 ^ k) % 256 := by
  apply Nat.eq_of_testBit_eq
  intro j
  have h255 : (255 : Nat) = 2 ^ 8 - 1 := by norm_num
  have h256 : (256 : Nat) = 2 ^ 8 := by norm_num
  rw [Nat.testBit_shiftRight, Nat.testBit_and, h256, Nat.testBit_mod_two_pow,
    ← Nat.shiftRight_eq_div_pow, Nat.testBit_shiftRight, Nat.mul_comm, Nat.testBit_mul_pow_two,
    h255, Nat.testBit_two_pow_sub_one]
  simp [Bool.and_comm]

theorem or_shift_eq_add (ret x k : Nat) (h : ret < 2 ^ k) :
    ret ||| (x * 2 ^ k) = ret + x * 2 ^ k := by
  rw [Nat.or_comm, Nat.mul_comm, ← Nat.mul_add_lt_is_or h, Nat.add_comm]

theorem assignStep_eq (lhs : Nat) (rhs : Nat → Int) (ret i : Nat) (v : Nat)
    (hi : i < 4) (hv : rhs i = (v : Int)) (hret : ret < 2 ^ (i * 8)) :
    assignStep lhs rhs ret i = ret + min 255 (channel lhs i + v) * 2 ^ (i * 8) := by
  have hmask : toU32 (0xff * 2 ^ (i * 8)) = 0xff * 2 ^ (i * 8) := by
    interval_cases i <;> rfl
  have hx : (min 0xff (((channel lhs i : Nat) : Int) + (v : Int)) : Int)
      = ((min 255 (channel lhs i + v) : Nat) : Int) := by
    push_cast; rfl
  have hlt : min 255 (channel lhs i + v) * 2 ^ (i * 8) < 2 ^ 32 := by
    have : min 255 (channel lhs i + v) ≤ 255 := Nat.min_le_left _ _
    interval_cases i <;> omega
  unfold assignStep
  simp only [hmask, mask_shift_eq, hv]
  have hch : lhs / 2 ^ (i * 8) % 256 = channel lhs i := by
    unfold channel; rw [Nat.mul_comm]
  rw [hch, hx]
  have hu : toU32 (((min 255 (channel lhs i + v) : Nat) : Int) * 2 ^ (i * 8))
      = min 255 (channel lhs i + v) * 2 ^ (i * 8) := by
    unfold toU32
    have : (((min 255 (channel lhs i + v) : Nat) : Int) * 2 ^ (i * 8))
        = ((min 255 (channel lhs i + v) * 2 ^ (i * 8) : Nat) : Int) := by push_cast; rfl
    rw [this]
    have h32 : ((2 : Int) ^ 32) = ((2 ^ 32 : Nat) : Int) := by norm_num
    rw [h32, ← Int.natCast_mod, Int.toNat_natCast, Nat.mod_eq_of_lt hlt]
  rw [hu, or_shift_eq_add _ _ _ hret]

/-- Closed form of `assign` for addends that are natural numbers. -/
theorem assign_eq (lhs : Nat) (a r g b : Nat) :
    assign lhs a r g b
      = min 255 (channel lhs 0 + b) + min 255 (channel lhs 1 + g) * 2 ^ 8
        + min 255 (channel lhs 2 + r) * 2 ^ 16 + min 255 (channel lhs 3 + a) * 2 ^ 24 := by
  have e : List.range 4 = [0, 1, 2, 3] := by decide
  unfold assign
  rw [e]
  simp only [List.foldl_cons, List.foldl_nil]
  have h0 := Nat.min_le_left 255 (channel lhs 0 + b)
  have h1 := Nat.min_le_left 255 (channel lhs 1 + g)
  have h2 := Nat.min_le_left 255 (channel lhs 2 + r)
  rw [assignStep_eq lhs _ 0 0 b (by decide) rfl (by decide)]
  rw [assignStep_eq lhs _ _ 1 g (by decide) rfl (by omega)]
  rw [assignStep_eq lhs _ _ 2 r (by decide) rfl (by omega)]
  rw [assignStep_eq lhs _ _ 3 a (by decide) rfl (by omega)]
  norm_num

end Graphio

namespace Graphio

/-- Every channel of the result of `assign` is the saturated sum. -/
theorem channel_assign (lhs a r g b : Nat) :
    channel (assign lhs a r g b) 0 = min 255 (channel lhs 0 + b) ∧
    channel (assign lhs a r g b) 1 = min 255 (channel lhs 1 + g) ∧
    channel (assign lhs a r g b) 2 = min 255 (channel lhs 2 + r) ∧
    channel (assign lhs a r g b) 3 = min 255 (channel lhs 3 + a) := by
  rw [assign_eq]
  have h0 := Nat.min_le_left 255 (channel lhs 0 + b)
  have h1 := Nat.min_le_left 255 (channel lhs 1 + g)
  have h2 := Nat.min_le_left 255 (channel lhs 2 + r)
  have h3 := Nat.min_le_left 255 (channel lhs 3 + a)
  generalize min 255 (channel lhs 0 + b) = v0 at *
  generalize min 255 (channel lhs 1 + g) = v1 at *
  generalize min 255 (channel lhs 2 + r) = v2 at *
  generalize min 255 (channel lhs 3 + a) = v3 at *
  unfold channel
  norm_num
  omega

theorem assign_lt (lhs a r g b : Nat) : assign lhs a r g b < 2 ^ 32 := by
  rw [assign_eq]
  have h0 := Nat.min_le_left 255 (channel lhs 0 + b)
  have h1 := Nat.min_le_left 255 (channel lhs 1 + g)
  have h2 := Nat.min_le_left 255 (channel lhs 2 + r)
  have h3 := Nat.min_le_left 255 (channel lhs 3 + a)
  omega

theorem channel_le (p i : Nat) : channel p i ≤ 255 := by
  unfold channel; omega

theorem sat_add_comm (x a b : Nat) :
    min 255 (min 255 (x + a) + b) = min 255 (min 255 (x + b) + a) := by omega

theorem sat_add_add (x a b : Nat) :
    min 255 (min 255 (x + a) + b) = min 255 (x + a + b) := by omega

/-- A pixel below `2 ^ 32` is determined by its four channels. -/
theorem pixel_eq_of_channels (p q : Nat) (hp : p < 2 ^ 32) (hq : q < 2 ^ 32)
    (h0 : channel p 0 = channel q 0) (h1 : channel p 1 = channel q 1)
    (h2 : channel p 2 = channel q 2) (h3 : channel p 3 = channel q 3) : p = q := by
  unfold channel at h0 h1 h2 h3
  norm_num at h0 h1 h2 h3
  omega

/-- C3: for a packed 32-bit pixel and addends `a, r, g, b` in `0..255`, every 8-bit
channel of `assign(pixel, a, r, g, b)` is `min(255, old channel + addend)` and the
result is again a 32-bit pixel (no carry into or out of a neighbouring channel); two
gray splats whose sum with the existing channel exceeds 255 leave that channel at
exactly 255; and with `a = 0` the alpha channel is unchanged. -/
theorem assign_saturating (pixel : Nat) (a r g b : Int) (hp : pixel < 2 ^ 32)
    (ha0 : 0 ≤ a) (ha : a ≤ 255) (hr0 : 0 ≤ r) (hr : r ≤ 255)
    (hg0 : 0 ≤ g) (hg : g ≤ 255) (hb0 : 0 ≤ b) (hb : b ≤ 255) :
    assign pixel a r g b < 2 ^ 32 ∧
    (channel (assign pixel a r g b) 0 : Int) = min 255 (channel pixel 0 + b) ∧
    (channel (assign pixel a r g b) 1 : Int) = min 255 (channel pixel 1 + g) ∧
    (channel (assign pixel a r g b) 2 : Int) = min 255 (channel pixel 2 + r) ∧
    (channel (assign pixel a r g b) 3 : Int) = min 255 (channel pixel 3 + a) ∧
    (∀ (w1 w2 : Int) (i : Nat), 0 ≤ w1 → w1 ≤ 255 → 0 ≤ w2 → w2 ≤ 255 → i < 3 →
      255 < channel pixel i + w1 + w2 →
      channel (assign (assign pixel 0 w1 w1 w1) 0 w2 w2 w2) i = 255) ∧
    channel (assign pixel 0 r g b) 3 = channel pixel 3 := by
  lift a to Nat using ha0
  lift r to Nat using hr0
  lift g to Nat using hg0
  lift b to Nat using hb0
  obtain ⟨c0, c1, c2, c3⟩ := channel_assign pixel a r g b
  refine ⟨assign_lt _ _ _ _ _, ?_, ?_, ?_, ?_, ?_, ?_⟩
  · rw [c0]; push_cast; rfl
  · rw [c1]; push_cast; rfl
  · rw [c2]; push_cast; rfl
  · rw [c3]; push_cast; rfl
  · intro w1 w2 i hw1 _ hw2 _ hi hsum
    lift w1 to Nat using hw1
    lift w2 to Nat using hw2
    obtain ⟨d0, d1, d2, _⟩ := channel_assign pixel 0 w1 w1 w1
    obtain ⟨e0, e1, e2, _⟩ := channel_assign (assign pixel 0 w1 w1 w1) 0 w2 w2 w2
    simp only [Nat.cast_zero] at d0 d1 d2 e0 e1 e2
    interval_cases i
    · rw [e0, d0]; omega
    · rw [e1, d1]; omega
    · rw [e2, d2]; omega
  · have h := (channel_assign pixel 0 r g b).2.2.2
    simp only [Nat.cast_zero] at h
    rw [h]
    have := channel_le pixel 3
    omega

/-- Witness for C3: the light grid value `0xccffffff` receiving a gray splat. -/
theorem assign_saturating_witness :
    (channel (assign 0xccffffff 0 200 200 200) 2 : Int)
      = min 255 (channel 0xccffffff 2 + 200) ∧
    channel (assign 0xccffffff 0 200 200 200) 3 = channel 0xccffffff 3 :=
  ⟨(assign_saturating 0xccffffff 0 200 200 200 (by decide) (by decide) (by decide)
      (by decide) (by decide) (by decide) (by decide) (by decide) (by decide)).2.2.2.1,
   (assign_saturating 0xccffffff 0 200 200 200 (by decide) (by decide) (by decide)
      (by decide) (by decide) (by decide) (by decide) (by decide) (by decide)).2.2.2.2.2.2⟩

/-- C10: saturating accumulation is order-independent: for a packed 32-bit pixel and
two contributions with all components in `0..255`, applying `assign` with the first and
then the second gives the same pixel as the other order, and every channel of both is
`min(255, old + first + second)`. -/
theorem assign_order_independent (pixel : Nat) (a1 r1 g1 b1 a2 r2 g2 b2 : Int)
    (hp : pixel < 2 ^ 32)
    (ha1 : 0 ≤ a1 ∧ a1 ≤ 255) (hr1 : 0 ≤ r1 ∧ r1 ≤ 255)
    (hg1 : 0 ≤ g1 ∧ g1 ≤ 255) (hb1 : 0 ≤ b1 ∧ b1 ≤ 255)
    (ha2 : 0 ≤ a2 ∧ a2 ≤ 255) (hr2 : 0 ≤ r2 ∧ r2 ≤ 255)
    (hg2 : 0 ≤ g2 ∧ g2 ≤ 255) (hb2 : 0 ≤ b2 ∧ b2 ≤ 255) :
    assign (assign pixel a1 r1 g1 b1) a2 r2 g2 b2
      = assign (assign pixel a2 r2 g2 b2) a1 r1 g1 b1 ∧
    (channel (assign (assign pixel a1 r1 g1 b1) a2 r2 g2 b2) 0 : Int)
      = min 255 (channel pixel 0 + b1 + b2) ∧
    (channel (assign (assign pixel a1 r1 g1 b1) a2 r2 g2 b2) 1 : Int)
      = min 255 (channel pixel 1 + g1 + g2) ∧
    (channel (assign (assign pixel a1 r1 g1 b1) a2 r2 g2 b2) 2 : Int)
      = min 255 (channel pixel 2 + r1 + r2) ∧
    (channel (assign (assign pixel a1 r1 g1 b1) a2 r2 g2 b2) 3 : Int)
      = min 255 (channel pixel 3 + a1 + a2) := by
  obtain ⟨ha1, -⟩ := ha1
  obtain ⟨hr1, -⟩ := hr1
  obtain ⟨hg1, -⟩ := hg1
  obtain ⟨hb1, -⟩ := hb1
  obtain ⟨ha2, -⟩ := ha2
  obtain ⟨hr2, -⟩ := hr2
  obtain ⟨hg2, -⟩ := hg2
  obtain ⟨hb2, -⟩ := hb2
  lift a1 to Nat using ha1
  lift r1 to Nat using hr1
  lift g1 to Nat using hg1
  lift b1 to Nat using hb1
  lift a2 to Nat using ha2
  lift r2 to Nat using hr2
  lift g2 to Nat using hg2
  lift b2 to Nat using hb2
  obtain ⟨p0, p1, p2, p3⟩ := channel_assign pixel a1 r1 g1 b1
  obtain ⟨q0, q1, q2, q3⟩ := channel_assign pixel a2 r2 g2 b2
  obtain ⟨s0, s1, s2, s3⟩ := channel_assign (assign pixel a1 r1 g1 b1) a2 r2 g2 b2
  obtain ⟨t0, t1, t2, t3⟩ := channel_assign (assign pixel a2 r2 g2 b2) a1 r1 g1 b1
  have hl := assign_lt (assign pixel a1 r1 g1 b1) a2 r2 g2 b2
  have hr := assign_lt (assign pixel a2 r2 g2 b2) a1 r1 g1 b1
  refine ⟨pixel_eq_of_channels _ _ hl hr ?_ ?_ ?_ ?_, ?_, ?_, ?_, ?_⟩
  · rw [s0, t0, p0, q0]; exact sat_add_comm _ _ _
  · rw [s1, t1, p1, q1]; exact sat_add_comm _ _ _
  · rw [s2, t2, p2, q2]; exact sat_add_comm _ _ _
  · rw [s3, t3, p3, q3]; exact sat_add_comm _ _ _
  · rw [s0, p0, sat_add_add]; push_cast; rfl
  · rw [s1, p1, sat_add_add]; push_cast; rfl
  · rw [s2, p2, sat_add_add]; push_cast; rfl
  · rw [s3, p3, sat_add_add]; push_cast; rfl

/-- Witness for C10: two gray splats of 200 and 100 onto the dark grid value. -/
theorem assign_order_independent_witness :
    assign (assign 0xcc000000 0 200 200 200) 0 100 100 100
      = assign (assign 0xcc000000 0 100 100 100) 0 200 200 200 :=
  (assign_order_independent 0xcc000000 0 200 200 200 0 100 100 100 (by decide)
    (by decide) (by decide) (by decide) (by decide)
    (by decide) (by decide) (by decide) (by decide)).1

end Graphio

namespace Graphio

/-! ### Pass A -/

/-- C2 (as stated) fails: with the cursor at `(100.25, 300.25)` the pixel in row 300,
column 7 has `row == round(cursor.y)` and yet Pass A stores the dark value. -/
theorem passA_round_counterexample :
    (300 : Int) = round (1201 / 4 : ℚ) ∧
    passA cy cx (⟨401 / 4, 1201 / 4⟩ : Point ℚ) (fun _ _ => 0) 300 7 = 0xcc000000 := by
  constructor
  · rw [round_eq, eq_comm, Int.floor_eq_iff]
    norm_num
  · simp only [passA, cy, cx]
    norm_num

/-- C2 (amended): for every cursor and every pixel `(row, col)` of the surface, after
Pass A the pixel holds `0xccffffff` if and only if the cursor's x coordinate is exactly
`col` or its y coordinate is exactly `row` (no rounding), and `0xcc000000` otherwise,
whatever the raster held before; a light pixel does satisfy `col == round(cursor.x)` or
`row == round(cursor.y)`. -/
theorem passA_exact {K : Type} [LinearOrderedField K] [FloorRing K]
    (height width : Nat) (cur : Point K) (pixels : Raster) (row col : Nat)
    (hrow : row < height) (hcol : col < width) :
    (passA height width cur pixels row col = 0xccffffff ↔
      (cur.re = (col : K) ∨ cur.im = (row : K))) ∧
    (¬ (cur.re = (col : K) ∨ cur.im = (row : K)) →
      passA height width cur pixels row col = 0xcc000000) ∧
    (∀ other : Raster,
      passA height width cur other row col = passA height width cur pixels row col) ∧
    (passA height width cur pixels row col = 0xccffffff →
      ((col : Int) = round cur.re ∨ (row : Int) = round cur.im)) := by
  have hin : row < height ∧ col < width := ⟨hrow, hcol⟩
  have hiff : passA height width cur pixels row col = 0xccffffff ↔
      (cur.re = (col : K) ∨ cur.im = (row : K)) := by
    unfold passA
    rw [if_pos hin]
    by_cases h : cur.re = (col : K) ∨ cur.im = (row : K)
    · rw [if_pos h]; exact ⟨fun _ => h, fun _ => rfl⟩
    · rw [if_neg h]; exact ⟨fun hne => absurd hne (by decide), fun h1 => absurd h1 h⟩
  refine ⟨hiff, ?_, ?_, ?_⟩
  · intro h
    unfold passA
    rw [if_pos hin, if_neg h]
  · intro other
    unfold passA
    rw [if_pos hin, if_pos hin]
  · intro hl
    rcases hiff.mp hl with h | h
    · left; rw [h, round_natCast]
    · right; rw [h, round_natCast]

/-- Witness for C2: cursor `(100, 300.25)` lights column 100. -/
theorem passA_exact_witness :
    passA cy cx (⟨100, 1201 / 4⟩ : Point ℚ) (fun _ _ => 0) 5 100 = 0xccffffff :=
  (passA_exact cy cx (⟨100, 1201 / 4⟩ : Point ℚ) (fun _ _ => 0) 5 100
    (by decide) (by decide)).1.mpr (Or.inl (by norm_num))

/-! ### Pass B: remainder and weights -/

theorem fmod_one_of_nonneg {K : Type} [LinearOrderedField K] [FloorRing K] (x : K)
    (hx : 0 ≤ x) : fmod x 1 = x - (⌊x⌋ : K) := by
  unfold fmod truncate
  rw [div_one, if_pos hx, mul_one]

theorem fmod_one_of_neg {K : Type} [LinearOrderedField K] [FloorRing K] (x : K)
    (hx : x < 0) : fmod x 1 = x - (⌈x⌉ : K) := by
  unfold fmod truncate
  rw [div_one, if_neg (not_le.mpr hx), mul_one]

theorem toUnsigned_of_nonneg {K : Type} [LinearOrderedField K] [FloorRing K] (v : K)
    (h0 : 0 ≤ v) (h1 : v ≤ 255) : toUnsigned v = some ⌊v⌋₊ := by
  unfold toUnsigned
  rw [if_pos]
  constructor
  · linarith
  · have : (255 : K) < 2 ^ 32 := by norm_num
    linarith

theorem weight_bounds {K : Type} [LinearOrderedField K] (s t : K)
    (hs0 : 0 ≤ s) (hs1 : s ≤ 1) (ht0 : 0 ≤ t) (ht1 : t ≤ 1) :
    0 ≤ 255 * s * t ∧ 255 * s * t ≤ 255 := by
  have h0 : 0 ≤ s * t := mul_nonneg hs0 ht0
  have h1 : s * t ≤ s * 1 := mul_le_mul_of_nonneg_left ht1 hs0
  have e : 255 * s * t = 255 * (s * t) := by ring
  rw [e]
  constructor <;> linarith

/-- C4 (as stated) fails: the point `(0.5, 0.5)` has the four weights 63, 63, 63, 63,
whose sum 252 is not within 1 of 255. -/
theorem weights_counterexample :
    weights (⟨1 / 2, 1 / 2⟩ : Point ℚ) = some (63, 63, 63, 63) ∧
    ¬ (254 ≤ 63 + 63 + 63 + 63) := by
  constructor
  · have h : fmod (1 / 2 : ℚ) 1 = 1 / 2 := by
      rw [fmod_one_of_nonneg _ (by norm_num)]
      have : ⌊(1 / 2 : ℚ)⌋ = 0 := by rw [Int.floor_eq_iff]; norm_num
      rw [this]; norm_num
    have hv : toUnsigned (255 / 4 : ℚ) = some 63 := by
      rw [toUnsigned_of_nonneg _ (by norm_num) (by norm_num)]
      have : ⌊(255 / 4 : ℚ)⌋₊ = 63 := by
        rw [Nat.floor_eq_iff (by norm_num)]; norm_num
      rw [this]
    unfold weights passB_pr
    simp only [h]
    norm_num
    simp [hv]
  · decide

/-- C4 (amended): for every point with non-negative coordinates the four weights are
defined and their sum is at least 252 and at most 255: each of the four products, which
add up to 255 exactly, is truncated separately. -/
theorem weights_sum {K : Type} [LinearOrderedField K] [FloorRing K] (pt : Point K)
    (hx : 0 ≤ pt.re) (hy : 0 ≤ pt.im) :
    ∃ a b c d : Nat, weights pt = some (a, b, c, d) ∧
      252 ≤ a + b + c + d ∧ a + b + c + d ≤ 255 := by
  have hxr : (passB_pr pt).re = Int.fract pt.re := by
    unfold passB_pr; simp only; rw [fmod_one_of_nonneg _ hx]; rfl
  have hyr : (passB_pr pt).im = Int.fract pt.im := by
    unfold passB_pr; simp only; rw [fmod_one_of_nonneg _ hy]; rfl
  have x0 := Int.fract_nonneg pt.re
  have x1 := Int.fract_lt_one pt.re
  have y0 := Int.fract_nonneg pt.im
  have y1 := Int.fract_lt_one pt.im
  generalize Int.fract pt.re = xr at *
  generalize Int.fract pt.im = yr at *
  have u0 : 0 ≤ 1 - xr := by linarith
  have u1 : 1 - xr ≤ 1 := by linarith
  have v0 : 0 ≤ 1 - yr := by linarith
  have v1 : 1 - yr ≤ 1 := by linarith
  obtain ⟨a0, a1⟩ := weight_bounds (1 - xr) (1 - yr) u0 u1 v0 v1
  obtain ⟨b0, b1⟩ := weight_bounds (1 - xr) yr u0 u1 y0 y1.le
  obtain ⟨c0, c1⟩ := weight_bounds xr (1 - yr) x0 x1.le v0 v1
  obtain ⟨d0, d1⟩ := weight_bounds xr yr x0 x1.le y0 y1.le
  have hsum : 255 * (1 - xr) * (1 - yr) + 255 * (1 - xr) * yr + 255 * xr * (1 - yr)
      + 255 * xr * yr = 255 := by ring
  refine ⟨⌊255 * (1 - xr) * (1 - yr)⌋₊, ⌊255 * (1 - xr) * yr⌋₊, ⌊255 * xr * (1 - yr)⌋₊,
    ⌊255 * xr * yr⌋₊, ?_, ?_, ?_⟩
  · unfold weights
    simp only [hxr, hyr]
    rw [toUnsigned_of_nonneg _ a0 a1, toUnsigned_of_nonneg _ b0 b1,
      toUnsigned_of_nonneg _ c0 c1, toUnsigned_of_nonneg _ d0 d1]
    rfl
  · have ha := Nat.lt_floor_add_one (255 * (1 - xr) * (1 - yr))
    have hb := Nat.lt_floor_add_one (255 * (1 - xr) * yr)
    have hc := Nat.lt_floor_add_one (255 * xr * (1 - yr))
    have hd := Nat.lt_floor_add_one (255 * xr * yr)
    have hs : (251 : K) < ((⌊255 * (1 - xr) * (1 - yr)⌋₊ + ⌊255 * (1 - xr) * yr⌋₊
        + ⌊255 * xr * (1 - yr)⌋₊ + ⌊255 * xr * yr⌋₊ : Nat) : K) := by
      push_cast
      linarith
    have : 251 < ⌊255 * (1 - xr) * (1 - yr)⌋₊ + ⌊255 * (1 - xr) * yr⌋₊
        + ⌊255 * xr * (1 - yr)⌋₊ + ⌊255 * xr * yr⌋₊ := by exact_mod_cast hs
    omega
  · have ha := Nat.floor_le a0
    have hb := Nat.floor_le b0
    have hc := Nat.floor_le c0
    have hd := Nat.floor_le d0
    have hs : ((⌊255 * (1 - xr) * (1 - yr)⌋₊ + ⌊255 * (1 - xr) * yr⌋₊
        + ⌊255 * xr * (1 - yr)⌋₊ + ⌊255 * xr * yr⌋₊ : Nat) : K) ≤ 255 := by
      push_cast
      linarith
    exact_mod_cast hs

/-- Witness for C4: the point `(100.5, 100.5)`. -/
theorem weights_sum_witness :
    ∃ a b c d : Nat, weights (⟨201 / 2, 201 / 2⟩ : Point ℚ) = some (a, b, c, d) ∧
      252 ≤ a + b + c + d ∧ a + b + c + d ≤ 255 :=
  weights_sum (⟨201 / 2, 201 / 2⟩ : Point ℚ) (by norm_num) (by norm_num)

end Graphio

namespace Graphio

/-! ### Burst generation -/

theorem pushWhile_length (bound : ℝ) (f : Nat → Point ℝ) :
    ∀ (n i : Nat), ⌈bound⌉₊ - i = n → (pushWhile bound f i).length = n := by
  intro n
  induction n with
  | zero =>
    intro i h
    have hle : ⌈bound⌉₊ ≤ i := by omega
    have hb : ¬ ((i : ℝ) < bound) := not_lt.mpr (Nat.ceil_le.mp hle)
    rw [pushWhile, if_neg hb]
    rfl
  | succ n ih =>
    intro i h
    have hlt : i < ⌈bound⌉₊ := by omega
    have hb : (i : ℝ) < bound := Nat.lt_ceil.mp hlt
    rw [pushWhile, if_pos hb, List.length_cons, ih (i + 1) (by omega)]

theorem ceil_sub_one_of_not_nat (d : ℝ) (hd : 0 ≤ d) (h : ∀ n : Nat, 0 < n → d ≠ n) :
    ⌈d⌉₊ - 1 = ⌊d⌋₊ := by
  have hfl : (⌊d⌋₊ : ℝ) ≤ d := Nat.floor_le hd
  have hlt : d < (⌊d⌋₊ : ℝ) + 1 := Nat.lt_floor_add_one d
  rcases eq_or_lt_of_le hfl with heq | hne
  · have h0 : ⌊d⌋₊ = 0 := by
      by_contra hpos
      exact h ⌊d⌋₊ (Nat.pos_of_ne_zero hpos) heq.symm
    have hd0 : d = 0 := by rw [← heq, h0]; simp
    rw [hd0]; simp
  · have hc : ⌈d⌉₊ = ⌊d⌋₊ + 1 := by
      rw [Nat.ceil_eq_iff (Nat.succ_ne_zero _)]
      refine ⟨?_, ?_⟩
      · simpa using hne
      · push_cast; exact hlt.le
    omega

theorem ceil_sub_one_of_nat (d : ℝ) (n : Nat) (h : d = n) : ⌈d⌉₊ - 1 = n - 1 := by
  rw [h, Nat.ceil_natCast]

theorem abs_nonneg (z : Point ℝ) : 0 ≤ z.abs := Real.sqrt_nonneg _

theorem inward_length (pt : Point ℝ) : (inward pt).length = ⌈pt.abs⌉₊ - 1 :=
  pushWhile_length _ _ _ _ rfl

theorem outward_length (width : Nat) (pt : Point ℝ) :
    (outward width pt).length = ⌈(Point.sub ⟨(width : ℝ), 0⟩ pt).abs⌉₊ - 1 :=
  pushWhile_length _ _ _ _ rfl

theorem spiral_length (pt : Point ℝ) : (spiral pt).length = 63 := by
  unfold spiral
  rw [List.length_map, List.length_range']

theorem burst_length_eq (width : Nat) (pt : Point ℝ) :
    (burst width pt).length = 1 + 63 + (inward pt).length + (outward width pt).length := by
  unfold burst
  rw [List.length_cons, List.length_append, List.length_append, spiral_length]
  omega

theorem abs_of_sq (x y d : ℝ) (hd : 0 ≤ d) (h : x ^ 2 + y ^ 2 = d ^ 2) :
    (⟨x, y⟩ : Point ℝ).abs = d := by
  unfold Point.abs
  simp only
  rw [h, Real.sqrt_sq hd]

theorem abs_between (x y : ℝ) (n : Nat) (h1 : (n : ℝ) ^ 2 < x ^ 2 + y ^ 2)
    (h2 : x ^ 2 + y ^ 2 < ((n : ℝ) + 1) ^ 2) :
    ⌊(⟨x, y⟩ : Point ℝ).abs⌋₊ = n ∧ ∀ m : Nat, 0 < m → (⟨x, y⟩ : Point ℝ).abs ≠ m := by
  have hn : (0 : ℝ) ≤ n := Nat.cast_nonneg n
  have lo : (n : ℝ) < (⟨x, y⟩ : Point ℝ).abs := (Real.lt_sqrt hn).mpr h1
  have hi : (⟨x, y⟩ : Point ℝ).abs < (n : ℝ) + 1 :=
    (Real.sqrt_lt' (by linarith)).mpr h2
  refine ⟨(Nat.floor_eq_iff (abs_nonneg _)).mpr ⟨lo.le, hi⟩, ?_⟩
  intro m _ hm
  rw [hm] at lo hi
  have lo1 : n < m := by exact_mod_cast lo
  have hi1 : m < n + 1 := by exact_mod_cast hi
  omega

/-- C1 (as stated) fails: with the cursor at the origin (its initial value) and width
1024 the burst has 1087 points, while `1 + 63 + floor(|c|) + floor(|(width,0) - c|)`
is 1088: the outward loop `i < 1024` runs for `i = 1 .. 1023` only. -/
theorem burst_length_counterexample :
    (burst 1024 (⟨0, 0⟩ : Point ℝ)).length = 1087 ∧
    1 + 63 + ⌊(⟨0, 0⟩ : Point ℝ).abs⌋₊
      + ⌊(Point.sub ⟨((1024 : Nat) : ℝ), 0⟩ (⟨0, 0⟩ : Point ℝ)).abs⌋₊ = 1088 := by
  have h0 : (⟨0, 0⟩ : Point ℝ).abs = 0 := abs_of_sq 0 0 0 le_rfl (by norm_num)
  have h1 : (Point.sub ⟨((1024 : Nat) : ℝ), 0⟩ (⟨0, 0⟩ : Point ℝ)).abs = 1024 := by
    unfold Point.sub
    exact abs_of_sq _ _ 1024 (by norm_num) (by norm_num)
  constructor
  · rw [burst_length_eq, inward_length, outward_length, h0, h1]
    have e1 : ⌈(0 : ℝ)⌉₊ = 0 := by simp
    have e2 : ⌈(1024 : ℝ)⌉₊ = 1024 := by simp
    rw [e1, e2]
  · rw [h0, h1]
    have e1 : ⌊(0 : ℝ)⌋₊ = 0 := by simp
    have e2 : ⌊(1024 : ℝ)⌋₊ = 1024 := by simp
    rw [e1, e2]

/-- C1 (amended): for every cursor position `c` and width 1024, the burst has
`1 + 63 + n_in + n_out` points, where the inward connector contributes
`n_in = ceil(|c|) - 1` points (the integers `i` with `1 <= i < |c|`) and the outward one
`n_out = ceil(|(width,0) - c|) - 1`; each count is the floor of its distance when that
distance is not a positive integer, and the distance minus one when it is. -/
theorem burst_length (c : Point ℝ) :
    (burst 1024 c).length = 1 + 63 + (inward c).length + (outward 1024 c).length ∧
    (inward c).length = ⌈c.abs⌉₊ - 1 ∧
    (outward 1024 c).length = ⌈(Point.sub ⟨((1024 : Nat) : ℝ), 0⟩ c).abs⌉₊ - 1 ∧
    ((∀ n : Nat, 0 < n → c.abs ≠ n) → (inward c).length = ⌊c.abs⌋₊) ∧
    ((∀ n : Nat, 0 < n → (Point.sub ⟨((1024 : Nat) : ℝ), 0⟩ c).abs ≠ n) →
      (outward 1024 c).length = ⌊(Point.sub ⟨((1024 : Nat) : ℝ), 0⟩ c).abs⌋₊) ∧
    (∀ n : Nat, 0 < n → c.abs = n → (inward c).length = n - 1) ∧
    (∀ n : Nat, 0 < n → (Point.sub ⟨((1024 : Nat) : ℝ), 0⟩ c).abs = n →
      (outward 1024 c).length = n - 1) := by
  refine ⟨burst_length_eq _ _, inward_length _, outward_length _ _, ?_, ?_, ?_, ?_⟩
  · intro h
    rw [inward_length, ceil_sub_one_of_not_nat _ (abs_nonneg _) h]
  · intro h
    rw [outward_length, ceil_sub_one_of_not_nat _ (abs_nonneg _) h]
  · intro n _ h
    rw [inward_length, ceil_sub_one_of_nat _ n h]
  · intro n _ h
    rw [outward_length, ceil_sub_one_of_nat _ n h]

/-- Witness for C1: the cursor `(100, 100)` on the 1024x768 surface gives
`1 + 63 + 141 + 929 = 1134` points. -/
theorem burst_length_witness : (burst 1024 (⟨100, 100⟩ : Point ℝ)).length = 1134 := by
  obtain ⟨h1, -, -, h4, h5, -, -⟩ := burst_length ⟨100, 100⟩
  obtain ⟨f1, n1⟩ := abs_between 100 100 141 (by norm_num) (by norm_num)
  have hs : Point.sub ⟨((1024 : Nat) : ℝ), 0⟩ (⟨100, 100⟩ : Point ℝ) = ⟨924, -100⟩ := by
    unfold Point.sub
    norm_num
  obtain ⟨f2, n2⟩ := abs_between 924 (-100) 929 (by norm_num) (by norm_num)
  rw [hs] at h5
  rw [h1, h4 n1, h5 n2, f1, f2]

end Graphio

namespace Graphio

/-! ### The spiral -/

theorem abs_polar (r theta : ℝ) (hr : 0 ≤ r) : (polar r theta).abs = r := by
  unfold polar
  apply abs_of_sq _ _ r hr
  have h := Real.cos_sq_add_sin_sq theta
  calc (r * Real.cos theta) ^ 2 + (r * Real.sin theta) ^ 2
      = r ^ 2 * (Real.cos theta ^ 2 + Real.sin theta ^ 2) := by ring
    _ = r ^ 2 := by rw [h, mul_one]

theorem add_sub_self (c d : Point ℝ) : (c.add d).sub c = d := by
  cases c
  cases d
  simp [Point.add, Point.sub]

theorem burst_getElem (width : Nat) (c : Point ℝ) (i : Nat) (h1 : 1 ≤ i) (h2 : i ≤ 63) :
    (burst width c)[i]?
      = some (c.add (polar (Real.sqrt (i : ℝ)) ((i : ℝ) * tau * phi))) := by
  obtain ⟨k, rfl⟩ : ∃ k, i = k + 1 := ⟨i - 1, by omega⟩
  have hk : k < (spiral c).length := by rw [spiral_length]; omega
  unfold burst
  rw [List.getElem?_cons_succ, List.getElem?_append_left hk]
  unfold spiral
  rw [List.getElem?_map, List.getElem?_range' _ _ (by omega)]
  simp only [Option.map_some', one_mul]
  rw [Nat.add_comm 1 k]

/-- C5: for every cursor position `c`, the burst starts with `c` itself followed by
exactly the 63 spiral points; for `i` in `1..63` the point at index `i` is
`c + polar(sqrt(i), i*tau*phi)`, its Euclidean distance from `c` is exactly `sqrt(i)`,
and the distance is strictly increasing in `i`. -/
theorem spiral_radius (width : Nat) (c : Point ℝ) :
    (burst width c).take 64 = c :: spiral c ∧
    (spiral c).length = 63 ∧
    (∀ i : Nat, 1 ≤ i → i ≤ 63 →
      (burst width c)[i]?
        = some (c.add (polar (Real.sqrt (i : ℝ)) ((i : ℝ) * tau * phi))) ∧
      ((c.add (polar (Real.sqrt (i : ℝ)) ((i : ℝ) * tau * phi))).sub c).abs
        = Real.sqrt (i : ℝ)) ∧
    (∀ (i j : Nat) (p q : Point ℝ), 1 ≤ i → i < j → j ≤ 63 →
      (burst width c)[i]? = some p → (burst width c)[j]? = some q →
      (p.sub c).abs < (q.sub c).abs) := by
  refine ⟨?_, spiral_length c, ?_, ?_⟩
  · unfold burst
    have h : 63 = (spiral c).length := (spiral_length c).symm
    rw [show (64 : Nat) = 63 + 1 from rfl, List.take_succ_cons, h, List.take_left]
  · intro i h1 h2
    refine ⟨burst_getElem width c i h1 h2, ?_⟩
    rw [add_sub_self, abs_polar _ _ (Real.sqrt_nonneg _)]
  · intro i j p q h1 hij h2 hp hq
    rw [burst_getElem width c i h1 (by omega)] at hp
    rw [burst_getElem width c j (by omega) h2] at hq
    cases hp
    cases hq
    rw [add_sub_self, add_sub_self, abs_polar _ _ (Real.sqrt_nonneg _),
      abs_polar _ _ (Real.sqrt_nonneg _)]
    apply Real.sqrt_lt_sqrt (Nat.cast_nonneg i)
    exact_mod_cast hij

/-- Witness for C5: the spiral point of index 4 lies at distance `sqrt 4` from `c`. -/
theorem spiral_radius_witness :
    (((⟨100, 100⟩ : Point ℝ).add
        (polar (Real.sqrt ((4 : Nat) : ℝ)) (((4 : Nat) : ℝ) * tau * phi))).sub
      ⟨100, 100⟩).abs = Real.sqrt ((4 : Nat) : ℝ) :=
  ((spiral_radius 1024 ⟨100, 100⟩).2.2.1 4 (by decide) (by decide)).2

end Graphio

namespace Graphio

/-! ### The point store under pointer events -/

theorem button_nonempty (pt : Point ℝ) (rest : List (Point ℝ)) (btn state : Nat) :
    button (pt :: rest) btn state
      = some (if btn = BTN_RIGHT ∧ state ≠ 0 then (pt :: rest) ++ burst cx pt
          else pt :: rest) := by
  unfold button
  by_cases h : btn = BTN_RIGHT ∧ state ≠ 0
  · rw [if_pos h, if_pos h]
  · rw [if_neg h, if_neg h]

theorem getElem?_append_burst (vs extra : List (Point ℝ)) (i : Nat)
    (h : i < vs.length) : (vs ++ extra)[i]? = vs[i]? :=
  List.getElem?_append_left h

/-- C8: the button handler leaves the store as it was when the button is not `BTN_RIGHT`
or the state is release (0); for `BTN_RIGHT` with a non-zero (pressed) state the store
becomes the old store followed by the burst of the cursor `pt` (the old index 0), and
the first point of that burst is `pt` itself. -/
theorem button_effect (vertices : List (Point ℝ)) (btn state : Nat) :
    ((btn ≠ BTN_RIGHT ∨ state = 0) → button vertices btn state = some vertices) ∧
    (btn = BTN_RIGHT → state ≠ 0 → ∀ (pt : Point ℝ) (rest : List (Point ℝ)),
      vertices = pt :: rest →
      button vertices btn state = some (vertices ++ burst cx pt) ∧
      (burst cx pt).head? = some pt ∧
      (burst cx pt)[0]? = vertices[0]?) := by
  constructor
  · intro h
    unfold button
    rw [if_neg]
    intro hc
    rcases h with h | h
    · exact h hc.1
    · exact hc.2 h
  · intro hb hs pt rest hv
    subst hv
    refine ⟨?_, rfl, ?_⟩
    · rw [button_nonempty, if_pos ⟨hb, hs⟩]
    · simp [burst]

/-- Witness for C8: a left-button press (`BTN_LEFT = 0x110`) and a right-button press
on the initial store. -/
theorem button_effect_witness :
    button [(⟨0, 0⟩ : Point ℝ)] 0x110 1 = some [⟨0, 0⟩] ∧
    button [(⟨0, 0⟩ : Point ℝ)] 0x111 1
      = some ([(⟨0, 0⟩ : Point ℝ)] ++ burst cx ⟨0, 0⟩) :=
  ⟨(button_effect [⟨0, 0⟩] 0x110 1).1 (Or.inl (by decide)),
   ((button_effect [⟨0, 0⟩] 0x111 1).2 rfl (by decide) ⟨0, 0⟩ [] rfl).1⟩

theorem keyHandler_keeps (quit : Bool) (key state : Nat) (h : quit = true) :
    keyHandler quit key state = true := by
  unfold keyHandler
  split
  · rfl
  · exact h

theorem keyHandler_sets (quit : Bool) (key state : Nat) (hs : state = 0)
    (hk : key = 1 ∨ key = 16) : keyHandler quit key state = true := by
  unfold keyHandler
  rw [if_pos ⟨hs, hk⟩]

/-- What one event does to a state whose store is not empty. -/
theorem step_spec (s : State) (e : Event) (h : s.vertices ≠ []) :
    ∃ s1 : State, step s e = some s1 ∧ s1.vertices ≠ [] ∧
      s.vertices.length ≤ s1.vertices.length ∧
      (∀ i : Nat, 1 ≤ i → i < s.vertices.length → s1.vertices[i]? = s.vertices[i]?) ∧
      (∀ x y : Int, e = Event.motion x y →
        s1.vertices.length = s.vertices.length ∧ s1.vertices.tail = s.vertices.tail ∧
        s1.vertices[0]? = some ⟨wl_fixed_to_double x, wl_fixed_to_double y⟩) ∧
      (s.quit = true → s1.quit = true) ∧
      (∀ k : Nat, (k = 1 ∨ k = 16) → e = Event.key k 0 → s1.quit = true) := by
  obtain ⟨q, vs⟩ := s
  cases vs with
  | nil => exact absurd rfl h
  | cons pt rest =>
    cases e with
    | motion x y =>
      refine ⟨⟨q, ⟨wl_fixed_to_double x, wl_fixed_to_double y⟩ :: rest⟩, rfl, ?_, ?_, ?_, ?_,
        ?_, ?_⟩
      · simp
      · simp
      · intro i h1 _
        obtain ⟨k, rfl⟩ : ∃ k, i = k + 1 := ⟨i - 1, by omega⟩
        simp
      · intro x1 y1 he
        cases he
        exact ⟨rfl, rfl, by simp⟩
      · intro hq; exact hq
      · intro k _ he; cases he
    | button b st =>
      refine ⟨⟨q, if b = BTN_RIGHT ∧ st ≠ 0 then (pt :: rest) ++ burst cx pt
        else pt :: rest⟩, ?_, ?_, ?_, ?_, ?_, ?_, ?_⟩
      · simp only [step]
        rw [button_nonempty]
        rfl
      · simp only
        split <;> simp
      · simp only
        split
        · rw [List.length_append]; omega
        · exact le_rfl
      · intro i _ hi
        simp only at hi ⊢
        split
        · exact getElem?_append_burst _ _ i hi
        · rfl
      · intro x y he; cases he
      · intro hq; exact hq
      · intro k _ he; cases he
    | key k st =>
      refine ⟨⟨keyHandler q k st, pt :: rest⟩, rfl, ?_, le_rfl, ?_, ?_, ?_, ?_⟩
      · simp
      · intro i _ _; rfl
      · intro x y he; cases he
      · intro hq; exact keyHandler_keeps q k st hq
      · intro k1 hk he
        cases he
        exact keyHandler_sets q _ 0 rfl hk

/-- Delivering any sequence of events to a state with a non-empty store succeeds, keeps
the store non-empty and the flag set once set, and sets the flag when the sequence holds
a release of key 1 or 16. -/
theorem run_spec (es : List Event) :
    ∀ s : State, s.vertices ≠ [] →
      ∃ s1 : State, run s es = some s1 ∧ s1.vertices ≠ [] ∧
        (s.quit = true → s1.quit = true) ∧
        (∀ k : Nat, (k = 1 ∨ k = 16) → Event.key k 0 ∈ es → s1.quit = true) := by
  induction es with
  | nil =>
    intro s h
    exact ⟨s, rfl, h, fun hq => hq, fun k _ hm => absurd hm (List.not_mem_nil _)⟩
  | cons e rest ih =>
    intro s h
    obtain ⟨s1, hs1, hne1, -, -, -, hq1, hk1⟩ := step_spec s e h
    obtain ⟨s2, hs2, hne2, hq2, hk2⟩ := ih s1 hne1
    refine ⟨s2, ?_, hne2, fun hq => hq2 (hq1 hq), ?_⟩
    · simp only [run]
      rw [hs1]
      exact hs2
    · intro k hk hm
      rcases List.mem_cons.mp hm with he | hr
      · exact hq2 (hk1 k hk he.symm)
      · exact hk2 k hk hr

/-- C6: for every store state reachable from the initial one-element store by a
sequence of pointer and keyboard events, the store is non-empty, and delivering one more
event succeeds, leaves the store non-empty, does not shorten it, and leaves every element
at an index `>= 1` of the pre-event store unchanged at its index; a motion event keeps
the length and everything but index 0, which becomes the new cursor. -/
theorem pointStore_append_only (es : List Event) (e : Event) :
    ∃ s s1 : State, run State.init es = some s ∧ step s e = some s1 ∧
      s.vertices ≠ [] ∧ s1.vertices ≠ [] ∧
      s.vertices.length ≤ s1.vertices.length ∧
      (∀ i : Nat, 1 ≤ i → i < s.vertices.length → s1.vertices[i]? = s.vertices[i]?) ∧
      (∀ x y : Int, e = Event.motion x y →
        s1.vertices.length = s.vertices.length ∧ s1.vertices.tail = s.vertices.tail ∧
        s1.vertices[0]? = some ⟨wl_fixed_to_double x, wl_fixed_to_double y⟩) := by
  have hinit : State.init.vertices ≠ [] := by
    unfold State.init
    simp
  obtain ⟨s, hs, hne, -, -⟩ := run_spec es State.init hinit
  obtain ⟨s1, hs1, hne1, hlen, hidx, hmot, -, -⟩ := step_spec s e hne
  exact ⟨s, s1, hs, hs1, hne, hne1, hlen, hidx, hmot⟩

end Graphio

namespace Graphio

/-! ### Quit key and frame loop -/

theorem frameLoop_quit (vs : List (Point ℝ)) (ds : List Dispatch) :
    frameLoop ⟨true, vs⟩ ds = some [] := by
  cases ds <;> simp [frameLoop]

/-- C7 (as stated) fails: a release (`state == 0`) of the Backspace key, code 14, leaves
the termination flag false, and the frame loop goes on to render a further frame. -/
theorem backspace_counterexample :
    keyHandler false 14 0 = false ∧
    frameLoop State.init [⟨[Event.key 14 0], false⟩]
      = some [[(⟨0, 0⟩ : Point ℝ)], [(⟨0, 0⟩ : Point ℝ)]] := by
  constructor
  · decide
  · simp [frameLoop, State.init, run, step, keyHandler]

/-- C7 (amended): a key event with the release state (`state == 0`) whose key code is 1
(`KEY_ESC`) or 16 (`KEY_Q`) sets the termination flag; no key event clears it; with the
flag set the frame loop starts no rendering call; and a dispatch that delivers such a
key event is followed by no further frame, whatever is dispatched afterwards. -/
theorem quit_key_stops_frames :
    (∀ (quit : Bool) (key state : Nat), state = 0 → (key = 1 ∨ key = 16) →
      keyHandler quit key state = true) ∧
    (∀ (quit : Bool) (key state : Nat), quit = true → keyHandler quit key state = true) ∧
    (∀ (vs : List (Point ℝ)) (ds : List Dispatch), frameLoop ⟨true, vs⟩ ds = some []) ∧
    (∀ (s : State) (d : Dispatch) (ds : List Dispatch) (k : Nat), s.vertices ≠ [] →
      (k = 1 ∨ k = 16) → Event.key k 0 ∈ d.events →
      frameLoop s (d :: ds) = some (if s.quit = true then [] else [s.vertices])) := by
  refine ⟨fun q k st hs hk => keyHandler_sets q k st hs hk,
    fun q k st hq => keyHandler_keeps q k st hq, frameLoop_quit, ?_⟩
  intro s d ds k hne hk hmem
  obtain ⟨s1, hs1, -, -, hq1⟩ := run_spec d.events s hne
  have hquit : s1.quit = true := hq1 k hk hmem
  obtain ⟨q1, vs1⟩ := s1
  simp only at hquit
  subst hquit
  by_cases hq : s.quit = true
  · rw [if_pos hq]
    unfold frameLoop
    rw [if_pos hq]
  · rw [if_neg hq]
    unfold frameLoop
    rw [if_neg hq]
    simp only [hs1]
    by_cases hf : d.failed = true
    · rw [if_pos hf]
    · rw [if_neg hf, frameLoop_quit]
      rfl

/-- Witness for C7: an Esc release delivered by the first dispatch; one frame only. -/
theorem quit_key_stops_frames_witness :
    keyHandler false 1 0 = true ∧
    frameLoop State.init
        [⟨[Event.key 1 0], false⟩, ⟨[Event.motion 256 256], false⟩, ⟨[], false⟩]
      = some (if State.init.quit = true then [] else [State.init.vertices]) :=
  ⟨quit_key_stops_frames.1 false 1 0 rfl (Or.inl rfl),
   quit_key_stops_frames.2.2.2 State.init ⟨[Event.key 1 0], false⟩ _ 1
     (by simp [State.init]) (Or.inl rfl) (by simp)⟩

/-! ### Pass B: the remainder of a negative coordinate -/

/-- For a negative coordinate that is not an integer the remainder `fmod(x, 1.0)` is
negative and differs from `x - floor(x)` by one. -/
theorem fmod_one_neg_lt {K : Type} [LinearOrderedField K] [FloorRing K] (x : K)
    (hx : x < 0) (hni : (⌊x⌋ : K) ≠ x) :
    fmod x 1 < 0 ∧ fmod x 1 = x - (⌊x⌋ : K) - 1 := by
  rw [fmod_one_of_neg x hx]
  have hlt : (⌊x⌋ : K) < x := lt_of_le_of_ne (Int.floor_le x) hni
  have hc : ⌈x⌉ = ⌊x⌋ + 1 := by
    rw [Int.ceil_eq_iff]
    constructor
    · push_cast; linarith
    · push_cast; exact (Int.lt_floor_add_one x).le
  rw [hc]
  push_cast
  constructor
  · have := Int.lt_floor_add_one x
    linarith
  · ring

/-- C9: at the point `(-0.5, 0.25)` Pass B computes the remainder `(-0.5, 0.25)`,
whereas `p - floor(p)` is `(0.5, 0.25)`: the x component is not in `[0, 1)`, and the
weights computed from it are not values of `unsigned`. -/
theorem passB_pr_negative :
    passB_pr (⟨-1 / 2, 1 / 4⟩ : Point ℚ) = ⟨-1 / 2, 1 / 4⟩ ∧
    (⟨-1 / 2, 1 / 4⟩ : Point ℚ).sub (passB_pq ⟨-1 / 2, 1 / 4⟩) = ⟨1 / 2, 1 / 4⟩ ∧
    (passB_pr (⟨-1 / 2, 1 / 4⟩ : Point ℚ)).re < 0 ∧
    weights (⟨-1 / 2, 1 / 4⟩ : Point ℚ) = none := by
  have hx : fmod (-1 / 2 : ℚ) 1 = -1 / 2 := by
    rw [fmod_one_of_neg _ (by norm_num)]
    have : ⌈(-1 / 2 : ℚ)⌉ = 0 := by rw [Int.ceil_eq_iff]; norm_num
    rw [this]; norm_num
  have hy : fmod (1 / 4 : ℚ) 1 = 1 / 4 := by
    rw [fmod_one_of_nonneg _ (by norm_num)]
    have : ⌊(1 / 4 : ℚ)⌋ = 0 := by rw [Int.floor_eq_iff]; norm_num
    rw [this]; norm_num
  have hfx : ⌊(-1 / 2 : ℚ)⌋ = -1 := by rw [Int.floor_eq_iff]; norm_num
  have hfy : ⌊(1 / 4 : ℚ)⌋ = 0 := by rw [Int.floor_eq_iff]; norm_num
  have hpr : passB_pr (⟨-1 / 2, 1 / 4⟩ : Point ℚ) = ⟨-1 / 2, 1 / 4⟩ := by
    unfold passB_pr
    simp only [hx, hy]
  refine ⟨hpr, ?_, ?_, ?_⟩
  · unfold Point.sub passB_pq
    simp only [hfx, hfy]
    norm_num
  · rw [hpr]; norm_num
  · have ha : toUnsigned (255 * (1 - (-1 / 2 : ℚ)) * (1 - 1 / 4)) = some 286 := by
      unfold toUnsigned
      rw [if_pos (by norm_num)]
      have : ⌊(255 * (1 - (-1 / 2 : ℚ)) * (1 - 1 / 4))⌋₊ = 286 := by
        rw [Nat.floor_eq_iff (by norm_num)]; norm_num
      rw [this]
    have hb : toUnsigned (255 * (1 - (-1 / 2 : ℚ)) * (1 / 4)) = some 95 := by
      unfold toUnsigned
      rw [if_pos (by norm_num)]
      have : ⌊(255 * (1 - (-1 / 2 : ℚ)) * (1 / 4))⌋₊ = 95 := by
        rw [Nat.floor_eq_iff (by norm_num)]; norm_num
      rw [this]
    have hc : toUnsigned (255 * (-1 / 2 : ℚ) * (1 - 1 / 4)) = none := by
      unfold toUnsigned
      rw [if_neg (by norm_num)]
    unfold weights
    simp only [hpr, ha, hb, hc]
    rfl

end Graphio

namespace Graphio

/-- A right-button press with the cursor at the origin (its initial value) stores a point
with a negative x coordinate, the first spiral point, and Pass B computes a negative
remainder for it. -/
theorem spiral_first_negative :
    ∃ p : Point ℝ, (burst cx ⟨0, 0⟩)[1]? = some p ∧ p.re < 0 ∧ (passB_pr p).re < 0 := by
  have h5lo : (2 : ℝ) < Real.sqrt 5 := (Real.lt_sqrt (by norm_num)).mpr (by norm_num)
  have h5hi : Real.sqrt 5 < 5 / 2 := (Real.sqrt_lt' (by norm_num)).mpr (by norm_num)
  have hpi := Real.pi_pos
  have hang : (1 : ℝ) * tau * phi = Real.pi * (Real.sqrt 5 - 2) + 2 * Real.pi + Real.pi := by
    unfold tau phi
    ring
  have hx0 : 0 < Real.pi * (Real.sqrt 5 - 2) := mul_pos hpi (by linarith)
  have hx1 : Real.pi * (Real.sqrt 5 - 2) < Real.pi / 2 := by nlinarith
  have hcos0 : 0 < Real.cos (Real.pi * (Real.sqrt 5 - 2)) :=
    Real.cos_pos_of_mem_Ioo ⟨by linarith, hx1⟩
  have hcos1 : Real.cos (Real.pi * (Real.sqrt 5 - 2)) < 1 := by
    have := Real.cos_lt_cos_of_nonneg_of_le_pi_div_two le_rfl hx1.le hx0
    rwa [Real.cos_zero] at this
  have hre : (((⟨0, 0⟩ : Point ℝ).add
      (polar (Real.sqrt ((1 : Nat) : ℝ)) (((1 : Nat) : ℝ) * tau * phi))).re)
      = -Real.cos (Real.pi * (Real.sqrt 5 - 2)) := by
    unfold Point.add polar
    simp only [Nat.cast_one, Real.sqrt_one, one_mul, zero_add]
    have h := hang
    rw [one_mul] at h
    rw [h, Real.cos_add_pi, Real.cos_add_two_pi]
  refine ⟨_, burst_getElem cx ⟨0, 0⟩ 1 le_rfl (by decide), ?_, ?_⟩
  · rw [hre]; linarith
  · have hneg : (((⟨0, 0⟩ : Point ℝ).add
        (polar (Real.sqrt ((1 : Nat) : ℝ)) (((1 : Nat) : ℝ) * tau * phi))).re) < 0 := by
      rw [hre]; linarith
    have hfl : ⌊(((⟨0, 0⟩ : Point ℝ).add
        (polar (Real.sqrt ((1 : Nat) : ℝ)) (((1 : Nat) : ℝ) * tau * phi))).re)⌋ = -1 := by
      rw [Int.floor_eq_iff, hre]
      constructor
      · push_cast; linarith
      · push_cast; linarith
    have hni : ((⌊(((⟨0, 0⟩ : Point ℝ).add
        (polar (Real.sqrt ((1 : Nat) : ℝ)) (((1 : Nat) : ℝ) * tau * phi))).re)⌋ : Int) : ℝ)
        ≠ (((⟨0, 0⟩ : Point ℝ).add
        (polar (Real.sqrt ((1 : Nat) : ℝ)) (((1 : Nat) : ℝ) * tau * phi))).re) := by
      rw [hfl, hre]
      push_cast
      linarith
    exact (fmod_one_neg_lt _ hneg hni).1

end Graphio

namespace Graphio

/-! ### Pass B: target pixels -/

theorem toUnsigned_floor {K : Type} [LinearOrderedField K] [FloorRing K] (x : K)
    (n : Nat) (h0 : 0 ≤ x) (hn : ⌊x⌋₊ = n) (h32 : n < 2 ^ 32) :
    toUnsigned ((⌊x⌋ : Int) : K) = some n := by
  have hc : ((⌊x⌋ : Int) : K) = ((n : Nat) : K) := by
    rw [← hn, natCast_floor_eq_intCast_floor h0]
  rw [hc]
  unfold toUnsigned
  have h1 : (-1 : K) < (n : K) := by
    have : (0 : K) ≤ (n : K) := Nat.cast_nonneg n
    linarith
  have h2 : (n : K) < 2 ^ 32 := by exact_mod_cast h32
  rw [if_pos ⟨h1, h2⟩, Nat.floor_natCast]

/-- The four target pixels of a point with non-negative coordinates whose integer
parts are below `2 ^ 32 - 1`. -/
theorem passB_targets_eq {K : Type} [LinearOrderedField K] [FloorRing K] (pt : Point K)
    (row col : Nat) (hx : 0 ≤ pt.re) (hy : 0 ≤ pt.im)
    (hrow : ⌊pt.im⌋₊ = row) (hcol : ⌊pt.re⌋₊ = col)
    (hr32 : row + 1 < 2 ^ 32) (hc32 : col + 1 < 2 ^ 32) :
    passB_targets pt
      = some [(row, col), (row + 1, col), (row, col + 1), (row + 1, col + 1)] := by
  unfold passB_targets passB_pq
  simp only
  rw [toUnsigned_floor pt.im row hy hrow (by omega),
    toUnsigned_floor pt.re col hx hcol (by omega)]
  simp only [Option.some_bind, Nat.add_zero]
  rw [Nat.mod_eq_of_lt (by omega : row < 2 ^ 32), Nat.mod_eq_of_lt (by omega : col < 2 ^ 32),
    Nat.mod_eq_of_lt hr32, Nat.mod_eq_of_lt hc32]

end Graphio

namespace Graphio

theorem floor_lt_dim {K : Type} [LinearOrderedField K] [FloorRing K] (x : K) (n : Nat)
    (h0 : 0 ≤ x) (h : x < (n : K)) : ⌊x⌋₊ < n :=
  (Nat.floor_lt h0).mpr h

theorem floor_succ_lt_dim {K : Type} [LinearOrderedField K] [FloorRing K] (x : K)
    (n : Nat) (hn : 0 < n) (h0 : 0 ≤ x) (h : x < (n : K) - 1) : ⌊x⌋₊ + 1 < n := by
  have hc : ((n - 1 : Nat) : K) = (n : K) - 1 := by
    rw [Nat.cast_sub hn, Nat.cast_one]
  have : ⌊x⌋₊ < n - 1 := (Nat.floor_lt h0).mpr (by rw [hc]; exact h)
  omega

theorem floor_eq_last {K : Type} [LinearOrderedField K] [FloorRing K] (x : K)
    (n : Nat) (hn : 0 < n) (h0 : 0 ≤ x) (h1 : (n : K) - 1 ≤ x) (h2 : x < (n : K)) :
    ⌊x⌋₊ + 1 = n := by
  have hc : ((n - 1 : Nat) : K) = (n : K) - 1 := by
    rw [Nat.cast_sub hn, Nat.cast_one]
  have : ⌊x⌋₊ = n - 1 := by
    rw [Nat.floor_eq_iff h0, hc]
    exact ⟨h1, by linarith⟩
  omega

/-- C11: Pass B compares no target index with the raster dimensions.  On a
`height x width` raster (both positive and below `2 ^ 32`) some point inside the surface
rectangle has a target pixel outside `[0,height) x [0,width)`; indeed every point of the
rectangle in the last column (`width - 1 <= p.x`) or the last row (`height - 1 <= p.y`)
has one; whereas for every `p` with `0 <= p.x < width - 1` and `0 <= p.y < height - 1`
the four targets `(q.y, q.x), (q.y+1, q.x), (q.y, q.x+1), (q.y+1, q.x+1)` are all inside
the raster. -/
theorem passB_no_bounds_check {K : Type} [LinearOrderedField K] [FloorRing K]
    (height width : Nat) (hh : 0 < height) (hw : 0 < width)
    (hh32 : height < 2 ^ 32) (hw32 : width < 2 ^ 32) :
    (∃ p : Point K, 0 ≤ p.re ∧ p.re < (width : K) ∧ 0 ≤ p.im ∧ p.im < (height : K) ∧
      ∃ ts : List (Nat × Nat), passB_targets p = some ts ∧
        ∃ t ∈ ts, ¬ (t.1 < height ∧ t.2 < width)) ∧
    (∀ p : Point K, 0 ≤ p.re → p.re < (width : K) → 0 ≤ p.im → p.im < (height : K) →
      ((width : K) - 1 ≤ p.re ∨ (height : K) - 1 ≤ p.im) →
      ∃ ts : List (Nat × Nat), passB_targets p = some ts ∧
        ∃ t ∈ ts, ¬ (t.1 < height ∧ t.2 < width)) ∧
    (∀ p : Point K, 0 ≤ p.re → p.re < (width : K) - 1 → 0 ≤ p.im →
      p.im < (height : K) - 1 →
      ∃ ts : List (Nat × Nat), passB_targets p = some ts ∧
        ts = [(⌊p.im⌋₊, ⌊p.re⌋₊), (⌊p.im⌋₊ + 1, ⌊p.re⌋₊), (⌊p.im⌋₊, ⌊p.re⌋₊ + 1),
          (⌊p.im⌋₊ + 1, ⌊p.re⌋₊ + 1)] ∧
        ∀ t ∈ ts, t.1 < height ∧ t.2 < width) := by
  have edge : ∀ p : Point K, 0 ≤ p.re → p.re < (width : K) → 0 ≤ p.im →
      p.im < (height : K) → ((width : K) - 1 ≤ p.re ∨ (height : K) - 1 ≤ p.im) →
      ∃ ts : List (Nat × Nat), passB_targets p = some ts ∧
        ∃ t ∈ ts, ¬ (t.1 < height ∧ t.2 < width) := by
    intro p hx hxw hy hyh hedge
    have hcol : ⌊p.re⌋₊ < width := floor_lt_dim p.re width hx hxw
    have hrow : ⌊p.im⌋₊ < height := floor_lt_dim p.im height hy hyh
    refine ⟨_, passB_targets_eq p ⌊p.im⌋₊ ⌊p.re⌋₊ hx hy rfl rfl (by omega) (by omega), ?_⟩
    rcases hedge with h | h
    · have e := floor_eq_last p.re width hw hx h hxw
      refine ⟨(⌊p.im⌋₊, ⌊p.re⌋₊ + 1), by simp, ?_⟩
      simp only
      omega
    · have e := floor_eq_last p.im height hh hy h hyh
      refine ⟨(⌊p.im⌋₊ + 1, ⌊p.re⌋₊), by simp, ?_⟩
      simp only
      omega
  refine ⟨?_, edge, ?_⟩
  · have hc : ((width - 1 : Nat) : K) = (width : K) - 1 := by
      rw [Nat.cast_sub hw, Nat.cast_one]
    have hpos : (0 : K) < (height : K) := by exact_mod_cast hh
    obtain ⟨ts, hts, hout⟩ := edge ⟨((width - 1 : Nat) : K), 0⟩ (Nat.cast_nonneg _)
      (by simp only; rw [hc]; linarith) le_rfl hpos (Or.inl (by simp only; rw [hc]))
    exact ⟨⟨((width - 1 : Nat) : K), 0⟩, Nat.cast_nonneg _, by simp only; rw [hc]; linarith,
      le_rfl, hpos, ts, hts, hout⟩
  · intro p hx hxw hy hyh
    have hcol := floor_succ_lt_dim p.re width hw hx hxw
    have hrow := floor_succ_lt_dim p.im height hh hy hyh
    refine ⟨_, passB_targets_eq p ⌊p.im⌋₊ ⌊p.re⌋₊ hx hy rfl rfl (by omega) (by omega),
      rfl, ?_⟩
    intro t ht
    simp only [List.mem_cons, List.mem_singleton, List.not_mem_nil, or_false] at ht
    rcases ht with rfl | rfl | rfl | rfl <;> exact ⟨by simp only; omega, by simp only; omega⟩

/-- Witness for C11 on the 1024x768 surface: the point `(1023.5, 100.25)`, in the last
column, is splatted onto column 1024. -/
theorem passB_no_bounds_check_witness :
    ∃ ts : List (Nat × Nat),
      passB_targets (⟨2047 / 2, 401 / 4⟩ : Point ℚ) = some ts ∧
        ∃ t ∈ ts, ¬ (t.1 < cy ∧ t.2 < cx) :=
  (passB_no_bounds_check cy cx (by decide) (by decide) (by decide) (by decide)).2.1
    (⟨2047 / 2, 401 / 4⟩ : Point ℚ) (by norm_num) (by norm_num [cx]) (by norm_num)
    (by norm_num [cy]) (Or.inl (by norm_num [cx]))

/-- The four target pixels of the point `(1023.5, 0)`: the last two lie in column 1024. -/
theorem passB_targets_last_column :
    passB_targets (⟨2047 / 2, 0⟩ : Point ℚ)
      = some [(0, 1023), (1, 1023), (0, 1024), (1, 1024)] := by
  apply passB_targets_eq _ 0 1023 (by norm_num) (by norm_num)
  · simp
  · rw [Nat.floor_eq_iff (by norm_num)]; norm_num
  · norm_num
  · norm_num

end Graphio
